import Mathlib

/-!
Verification of the Whirlwind commitment-accumulator protocol.

This file gives a shallow embedding of the repository's core components and
proves properties about them:

* `MerkleTree` — the off-chain accumulator from
  `hw5/gen_toml/src/CircuitTomlGenerator.ts` (class `MerkleTree`): sparse
  storage keyed by `(level, index)`, per-level zero constants, `root`,
  `proof`, `insert`, `update`, `traverse`.
* the deposit/withdraw circuit Merkle walks from
  `contracts/circuits/deposit_circuit/src/deposit.nr` and `withdraw.nr`.
* the `Whirlwind` ledger contract (both the README-provided version and the
  checked-in `hw5/contracts/whirlwind.sol` variant).
* the `NoirCircuitTomlGenerator` state from `CircuitTomlGenerator.ts`.

Field elements (`Fr` in bb.js, `Field` in Noir, `bytes32` on chain) are
modeled as `Nat`; the 2-ary Pedersen hash is an abstract parameter
`H : Fr → Fr → Fr`, since the repository treats it as an external primitive.
No field arithmetic is performed on these values by the embedded code, only
hashing, comparison and storage, so this modeling is faithful.
-/

/-- Field elements (bb.js `Fr`): modeled as `Nat`. -/
abbrev Fr := Nat

/-! ## Merkle tree (CircuitTomlGenerator.ts, class `MerkleTree`) -/
/-- Storage key `(level, index)`, mirroring `indexToKey(level, index)`. -/
abbrev MKey := Nat × Nat

/-- The sparse storage `Map<string, Fr>`: an association list where the most
recent `set` is at the head. -/
abbrev MStorage := List (MKey × Fr)

/-- `storage.get(key)`: first matching entry wins (the most recent `set`). -/
def MStorage.getS : MStorage → MKey → Option Fr
  | [], _ => none
  | (k, v) :: rest, q => if k = q then some v else MStorage.getS rest q

/-- `storage.set(key, value)`: overwriting write, modeled by prepending. -/
def MStorage.setS (s : MStorage) (k : MKey) (v : Fr) : MStorage :=
  (k, v) :: s

/-- `keyValueToStore.forEach(o => storage.set(o.key, o.value))`: commit a
batch of writes in order. -/
def MStorage.commit : MStorage → List (MKey × Fr) → MStorage
  | s, [] => s
  | s, kv :: rest => MStorage.commit (s.setS kv.1 kv.2) rest

/-- The mutable fields of the TS `MerkleTree` object.  `levels` is the
depth D (level 0 = leaves, level D = root), `totalLeaves` the number of
inserted leaves.  The zero constants are modeled by the `zeros` function
below rather than a stored array. -/
structure MerkleTree where
  levels : Nat
  storage : MStorage
  totalLeaves : Nat
  deriving DecidableEq, Repr

namespace MerkleTree

/-- The per-level zero constants built in `initialize`:
`zeros[0] = zeroValue`, `zeros[i+1] = pedersenHash(zeros[i], zeros[i])`. -/
def zeros (H : Fr → Fr → Fr) (z : Fr) : Nat → Fr
  | 0 => z
  | n + 1 => H (zeros H z n) (zeros H z n)

/-- `new MerkleTree(D)` followed by `initialize([])`. -/
def empty (D : Nat) : MerkleTree := ⟨D, [], 0⟩

/-- A stored node, falling back to the level's zero constant:
`storage.get(indexToKey(level, index)) || zeros[level]`. -/
def getNode (H : Fr → Fr → Fr) (z : Fr) (t : MerkleTree) (level idx : Nat) : Fr :=
  (t.storage.getS (level, idx)).getD (zeros H z level)

/-- `root()`: the node stored at `(levels, 0)`, or the all-zero root. -/
def root (H : Fr → Fr → Fr) (z : Fr) (t : MerkleTree) : Fr :=
  (t.storage.getS (t.levels, 0)).getD (zeros H z t.levels)

/-- The sibling index computed in `traverse`: `currentIndex + 1` when the
current index is even, `currentIndex - 1` when odd (that is, XOR with 1). -/
def siblingIndex (i : Nat) : Nat :=
  if i % 2 = 0 then i + 1 else i - 1

/-- The `traverse` loop as used by `proof`: walking `fuel` levels up from
`cur` starting at `level`, collecting `(pathElements, pathIndices)`.
Each element is the sibling's stored value or zero constant, each bit is
`currentIndex % 2`. -/
def pathAux (H : Fr → Fr → Fr) (z : Fr) (t : MerkleTree) :
    Nat → Nat → Nat → List Fr × List Nat
  | 0, _, _ => ([], [])
  | fuel + 1, level, cur =>
    let sv := getNode H z t level (siblingIndex cur)
    let rest := pathAux H z t fuel (level + 1) (cur / 2)
    (sv :: rest.1, (cur % 2) :: rest.2)

/-- The record returned by `proof(indexOfLeaf)`. -/
structure ProofOut where
  root : Fr
  pathElements : List Fr
  pathIndices : List Nat
  leaf : Fr
  deriving DecidableEq, Repr

/-- `proof(indexOfLeaf)`: the leaf (defaulting to `zeros[0]` when absent),
the sibling path with its left/right bits, and the current root. -/
def proof (H : Fr → Fr → Fr) (z : Fr) (t : MerkleTree) (indexOfLeaf : Nat) : ProofOut :=
  let leaf := (t.storage.getS (0, indexOfLeaf)).getD (zeros H z 0)
  let p := pathAux H z t t.levels 0 indexOfLeaf
  ⟨root H z t, p.1, p.2, leaf⟩

/-- The `traverse` loop as used by `update`: walking up from `cur`, at each
level ordering `(currentElement, sibling)` by the parity of the current
index, hashing, and recording the node to store.  Returns the pending
writes and the final root value.  Sibling reads go to the original tree
`t`, as in the source (writes are only committed afterwards). -/
def updateAux (H : Fr → Fr → Fr) (z : Fr) (t : MerkleTree) :
    Nat → Nat → Nat → Fr → List (MKey × Fr) × Fr
  | 0, _, _, curElem => ([], curElem)
  | fuel + 1, level, cur, curElem =>
    let sibElem := getNode H z t level (siblingIndex cur)
    let lr : Fr × Fr := if cur % 2 = 0 then (curElem, sibElem) else (sibElem, curElem)
    let parent := H lr.1 lr.2
    let rest := updateAux H z t fuel (level + 1) (cur / 2) parent
    (((level, cur), curElem) :: rest.1, rest.2)

/-- `update(index, newLeaf, isInsert)`.  The two guards are exactly those of
the source; on the happy path the writes along the path plus the new root
at `(levels, 0)` are committed. -/
def update (H : Fr → Fr → Fr) (z : Fr) (t : MerkleTree)
    (index : Nat) (newLeaf : Fr) (isInsert : Bool) : Except String MerkleTree :=
  if isInsert = false ∧ t.totalLeaves ≤ index then
    .error "Use insert method for new elements."
  else if isInsert = true ∧ index < t.totalLeaves then
    .error "Use update method for existing elements."
  else
    let r := updateAux H z t t.levels 0 index newLeaf
    .ok { t with storage := t.storage.commit (r.1 ++ [((t.levels, 0), r.2)]) }

/-- `insert(leaf)`: `update(totalLeaves, leaf, true)` then `totalLeaves++`
(the increment only happens when `update` did not throw). -/
def insert (H : Fr → Fr → Fr) (z : Fr) (t : MerkleTree) (leaf : Fr) :
    Except String MerkleTree :=
  (update H z t t.totalLeaves leaf true).map
    fun t' => { t' with totalLeaves := t.totalLeaves + 1 }

/-- The result of a (never-failing, see `insert_eq_ok`) `insert`, as a total
function. -/
def insertT (H : Fr → Fr → Fr) (z : Fr) (t : MerkleTree) (leaf : Fr) : MerkleTree :=
  let r := updateAux H z t t.levels 0 t.totalLeaves leaf
  { t with storage := t.storage.commit (r.1 ++ [((t.levels, 0), r.2)]),
           totalLeaves := t.totalLeaves + 1 }

/-- The tree obtained from `new MerkleTree(D)` by inserting the leaves of
`L` in order. -/
def insertList (H : Fr → Fr → Fr) (z : Fr) (D : Nat) (L : List Fr) : MerkleTree :=
  L.foldl (insertT H z) (empty D)

end MerkleTree

/-! ## Canonical sparse-tree semantics

`buildNode H z L level idx` is the canonical value of node `(level, idx)`
of a sparse Merkle tree holding the leaves of `L` at indices `0, 1, …` and
the zero constant in every other slot.  The invariant `Mirrors` below says
that a `MerkleTree` value agrees with this semantics; it is established for
every tree built by sequential `insert` calls. -/
/-- Canonical node value of the zero-padded tree over leaf list `leaves`. -/
def buildNode (H : Fr → Fr → Fr) (z : Fr) (leaves : List Fr) : Nat → Nat → Fr
  | 0, idx => leaves.getD idx z
  | level + 1, idx =>
    H (buildNode H z leaves level (2 * idx)) (buildNode H z leaves level (2 * idx + 1))

/-- Re-derivation of a root "by hand" from a leaf, sibling path and
left/right bits: at each level the current value is hashed with the
sibling, on the right when the bit is 1 and on the left otherwise. -/
def foldUp (H : Fr → Fr → Fr) : List Fr → List Nat → Fr → Fr
  | e :: es, b :: bs, cur => foldUp H es bs (if b = 1 then H e cur else H cur e)
  | _, _, cur => cur

namespace MerkleTree

/-- `t` faithfully mirrors the canonical sparse tree over leaf list `L`:
the leaf counter matches and every readable node (up to the root level)
has its canonical value. -/
def Mirrors (H : Fr → Fr → Fr) (z : Fr) (t : MerkleTree) (L : List Fr) : Prop :=
  t.totalLeaves = L.length ∧
  ∀ level idx, level ≤ t.levels →
    getNode H z t level idx = buildNode H z L level idx

/-- The full batch of writes performed by one `update` call: the path
nodes recorded by `updateAux` together with the final root write at
`(levels, 0)` (see `updateAux_entries`). -/
def updEntries (H : Fr → Fr → Fr) (z : Fr) (t : MerkleTree) :
    Nat → Nat → Nat → Fr → List (MKey × Fr)
  | 0, _, _, e => [((t.levels, 0), e)]
  | fuel + 1, level, cur, e =>
    let sibElem := getNode H z t level (siblingIndex cur)
    let lr : Fr × Fr := if cur % 2 = 0 then (e, sibElem) else (sibElem, e)
    ((level, cur), e) :: updEntries H z t fuel (level + 1) (cur / 2) (H lr.1 lr.2)

end MerkleTree

namespace Circuit

/-! ## Circuit Merkle walks (deposit.nr / withdraw.nr)

Both Noir circuits decompose the public `index` into D little-endian bits
and fold the sibling path over the start value: at level `i`, when bit `i`
is 1 the current value is the right operand of the hash, otherwise the
left. -/
/-- `index.to_le_bits::<D>()`: the D little-endian bits of the index. -/
def leBits : Nat → Nat → List Nat
  | 0, _ => []
  | d + 1, n => n % 2 :: leBits d (n / 2)

/-- The loop body of both circuits:
`if bits[i] == 1 { cur = H(path[i], cur) } else { cur = H(cur, path[i]) }`. -/
def circuitFold (H : Fr → Fr → Fr) : List Fr → List Nat → Fr → Fr
  | p :: ps, b :: bs, cur => circuitFold H ps bs (if b = 1 then H p cur else H cur p)
  | _, _, cur => cur

/-- The circuits' path-to-root walk: decompose `index` into `D`
little-endian bits, then fold the path. -/
def circuitWalk (H : Fr → Fr → Fr) (D : Nat) (index : Nat) (path : List Fr)
    (start : Fr) : Fr :=
  circuitFold H path (leBits D index) start

/-- The constraint set of `deposit.nr` (depth D): the commitment is
`H(id, r)`, walking `oldPath` from the zero-leaf constant gives `oldRoot`,
and walking the same path from the commitment gives `newRoot`. -/
def depositMain (H : Fr → Fr → Fr) (z : Fr) (D : Nat) (id r : Fr)
    (oldPath : List Fr) (oldRoot newRoot commitment index : Fr) : Prop :=
  H id r = commitment ∧
  circuitWalk H D index oldPath z = oldRoot ∧
  circuitWalk H D index oldPath commitment = newRoot

/-- The constraint set of `withdraw.nr` (depth D): walking `path` from the
recomputed commitment `H(id, r)` gives `root`; the public `id` is the
nullifier. -/
def withdrawMain (H : Fr → Fr → Fr) (D : Nat) (r index : Fr)
    (path : List Fr) (root id : Fr) : Prop :=
  circuitWalk H D index path (H id r) = root

end Circuit

/-- The Accumulator's walk, abstracted over the sibling values read at each
level: the `update` combine step — order `(currentElement, sibling)` by
the parity of the current node index, hash, halve the index. -/
def accWalk (H : Fr → Fr → Fr) : List Fr → Nat → Fr → Fr
  | [], _, e => e
  | sib :: rest, cur, e =>
    let lr : Fr × Fr := if cur % 2 = 0 then (e, sib) else (sib, e)
    accWalk H rest (cur / 2) (H lr.1 lr.2)

namespace Whirlwind

/-! ## The Whirlwind ledger contract

Two versions of `contract Whirlwind` appear in the repository: the one
embedded in `hw5/README.md` (and as a standalone source file), and the
checked-in `hw5/contracts/whirlwind.sol`, whose `deposit` packs the public
inputs as `(commitment, depositIndex, newRoot)` and whose `withdraw` takes
an extra caller-supplied `root` argument.  Both are embedded below.

`bytes32` values are modeled as `Nat`; the verifier contracts are an
abstract capability `verify : proof → publicInputs → Bool`; `msg.value`,
`msg.sender` and the `transfer` amount are explicit arguments/results.
A Solidity `require` failure reverts the whole call, which the embedding
models by returning `Except.error` (no state change). -/
/-- The contract's mutable state.  `usedNullifiers` models the
`mapping(bytes32 => bool)` as the list of keys set to `true`. -/
structure State where
  depositIndex : Nat
  maxDeposits : Nat
  usedNullifiers : List Nat
  currentRoot : Nat
  deriving DecidableEq, Repr

/-- The events `Deposit(newRoot, commitment, index)` and
`Withdraw(recipient, nullifier)`. -/
inductive Event where
  | Deposit (newRoot commitment index : Nat)
  | Withdraw (recipient nullifier : Nat)
  deriving DecidableEq, Repr

/-- `0.1 ether` in wei: the fixed unit amount. -/
def unitAmountWei : Nat := 100000000000000000

/-- `constructor(_depositVerifier, _withdrawVerifier, _merkleTreeDepth,
_initialRoot)`: `maxDeposits = 2 ** _merkleTreeDepth`. -/
def init (merkleTreeDepth : Nat) (initialRoot : Nat) : State :=
  ⟨0, 2 ^ merkleTreeDepth, [], initialRoot⟩

/-- `deposit(proof, newRoot, commitment)` of the README-provided contract:
public inputs `[currentRoot, newRoot, commitment, depositIndex]`; on
success `currentRoot := newRoot`, the Deposit event is emitted with the
pre-increment index, and `depositIndex` is incremented. -/
def deposit (verify : Nat → List Nat → Bool) (s : State)
    (proof newRoot commitment msgValue : Nat) : Except String (State × Event) :=
  if ¬ s.depositIndex < s.maxDeposits then .error "Deposit limit reached"
  else
    let publicInputs := [s.currentRoot, newRoot, commitment, s.depositIndex]
    if ¬ msgValue = unitAmountWei then .error "Must deposit exactly 0.1 ETH"
    else if ¬ verify proof publicInputs = true then .error "Invalid deposit proof"
    else .ok ({ s with currentRoot := newRoot, depositIndex := s.depositIndex + 1 },
              .Deposit newRoot commitment s.depositIndex)

/-- `withdraw(proof, nullifier)` of the README-provided contract: rejects a
used nullifier first, verifies against `[currentRoot, nullifier]`, then
marks the nullifier, emits Withdraw and transfers `0.1 ether` to the
caller (the returned amount). -/
def withdraw (verify : Nat → List Nat → Bool) (s : State)
    (proof nullifier sender : Nat) : Except String (State × Event × Nat) :=
  if nullifier ∈ s.usedNullifiers then .error "Nullifier already used"
  else if ¬ verify proof [s.currentRoot, nullifier] = true then
    .error "Invalid withdraw proof"
  else .ok ({ s with usedNullifiers := nullifier :: s.usedNullifiers },
            .Withdraw sender nullifier, unitAmountWei)

/-- `deposit` of the checked-in `hw5/contracts/whirlwind.sol`: the public
inputs are `abi.encodePacked(commitment, depositIndex, newRoot)` — in that
order, and without the stored `currentRoot`. -/
def depositHw5 (verify : Nat → List Nat → Bool) (s : State)
    (proof newRoot commitment msgValue : Nat) : Except String (State × Event) :=
  if ¬ s.depositIndex < s.maxDeposits then .error "Deposit limit reached"
  else
    let publicInputs := [commitment, s.depositIndex, newRoot]
    if ¬ msgValue = unitAmountWei then .error "Must deposit exactly 0.1 ETH"
    else if ¬ verify proof publicInputs = true then .error "Invalid deposit proof"
    else .ok ({ s with currentRoot := newRoot, depositIndex := s.depositIndex + 1 },
              .Deposit newRoot commitment s.depositIndex)

/-- `withdraw(proof, root, nullifier)` of the checked-in
`hw5/contracts/whirlwind.sol`: takes a third, caller-supplied `root`
argument and verifies against `[root, nullifier]` instead of the stored
`currentRoot`. -/
def withdrawHw5 (verify : Nat → List Nat → Bool) (s : State)
    (proof root nullifier sender : Nat) : Except String (State × Event × Nat) :=
  if nullifier ∈ s.usedNullifiers then .error "Nullifier already used"
  else if ¬ verify proof [root, nullifier] = true then
    .error "Invalid withdraw proof"
  else .ok ({ s with usedNullifiers := nullifier :: s.usedNullifiers },
            .Withdraw sender nullifier, unitAmountWei)

/-- One accepted ledger transition (under fixed deposit/withdraw
verifiers): a successful `deposit` or a successful `withdraw`. -/
inductive Step (vD vW : Nat → List Nat → Bool) : State → State → Prop where
  | deposit (s s' : State) (proof newRoot commitment msgValue : Nat) (e : Event)
      (h : deposit vD s proof newRoot commitment msgValue = .ok (s', e)) :
      Step vD vW s s'
  | withdraw (s s' : State) (proof nullifier sender : Nat) (e : Event) (amt : Nat)
      (h : withdraw vW s proof nullifier sender = .ok (s', e, amt)) :
      Step vD vW s s'

/-- The body of a successful `withdraw` in statement order:
`usedNullifiers[nullifier] = true;` then `emit Withdraw(...)` then
`payable(msg.sender).transfer(0.1 ether)`. -/
inductive Effect where
  | markNullifier (n : Nat)
  | emitWithdraw (recipient n : Nat)
  | transfer (recipient amount : Nat)
  deriving DecidableEq, Repr

/-- `withdraw` as the ordered list of its effects (succeeds or reverts
exactly as `withdraw` does). -/
def withdrawEffects (verify : Nat → List Nat → Bool) (s : State)
    (proof nullifier sender : Nat) : Except String (List Effect) :=
  if nullifier ∈ s.usedNullifiers then .error "Nullifier already used"
  else if ¬ verify proof [s.currentRoot, nullifier] = true then
    .error "Invalid withdraw proof"
  else .ok [.markNullifier nullifier, .emitWithdraw sender nullifier,
            .transfer sender unitAmountWei]

/-- The state change attached to each effect (events and the outgoing
transfer do not modify contract storage). -/
def applyEffect (s : State) : Effect → State
  | .markNullifier n => { s with usedNullifiers := n :: s.usedNullifiers }
  | .emitWithdraw _ _ => s
  | .transfer _ _ => s

/-- Contract state after a sequence of effects. -/
def applyEffects (s : State) (l : List Effect) : State :=
  l.foldl applyEffect s

end Whirlwind

/-! ## NoirCircuitTomlGenerator (CircuitTomlGenerator.ts)

The generator owns a depth-8 `MerkleTree` and a list of deposit records.
Its `deposit(id, r)` method and the `'deposit'` branch of
`gentoml(circuitType, …)` have the same (duplicated) state-changing body;
the TOML text returned by `gentoml` is a serialization of the deposit
record, which the embedding returns as data (text serialization is outside
the core, spec §6). -/
/-- A `DepositRecord`.  `index` is stored as a field element via
`numToFr`, which is the canonical embedding of a JS number and hence the
identity in this model. -/
structure DepositRecord where
  id : Fr
  r : Fr
  commitment : Fr
  index : Fr
  oldRoot : Fr
  newRoot : Fr
  hashPath : List Fr
  pathIndices : List Nat
  deriving DecidableEq, Repr

/-- The `NoirCircuitTomlGenerator` state: the internal tree plus the
recorded deposits. -/
structure NoirCircuitTomlGenerator where
  tree : MerkleTree
  deposits : List DepositRecord
  deriving DecidableEq, Repr

namespace NoirCircuitTomlGenerator

/-- `new NoirCircuitTomlGenerator()` (tree of depth 8, no deposits)
followed by `init()`. -/
def initGen : NoirCircuitTomlGenerator := ⟨MerkleTree.empty 8, []⟩

/-- `deposit(id, r)`: read the next free index, the old root and the proof
for that slot, compute the commitment `pedersenHash([id, r], 0)`, insert
it into the tree, and push the deposit record. -/
def deposit (H : Fr → Fr → Fr) (z : Fr) (g : NoirCircuitTomlGenerator)
    (id r : Fr) : Except String (NoirCircuitTomlGenerator × DepositRecord) := do
  let indexNumber := g.tree.totalLeaves
  let oldRoot := MerkleTree.root H z g.tree
  let p := MerkleTree.proof H z g.tree indexNumber
  let commitment := H id r
  let tree' ← MerkleTree.insert H z g.tree commitment
  let newRoot := MerkleTree.root H z tree'
  let record : DepositRecord :=
    ⟨id, r, commitment, indexNumber, oldRoot, newRoot, p.pathElements, p.pathIndices⟩
  pure (⟨tree', g.deposits ++ [record]⟩, record)

/-- The `'deposit'` branch of `gentoml(…)`: the same state-changing body
as `deposit(id, r)` (the source duplicates it), returning the record whose
fields make up the emitted TOML string. -/
def gentomlDeposit (H : Fr → Fr → Fr) (z : Fr) (g : NoirCircuitTomlGenerator)
    (id r : Fr) : Except String (NoirCircuitTomlGenerator × DepositRecord) := do
  let indexNumber := g.tree.totalLeaves
  let oldRoot := MerkleTree.root H z g.tree
  let p := MerkleTree.proof H z g.tree indexNumber
  let commitment := H id r
  let tree' ← MerkleTree.insert H z g.tree commitment
  let newRoot := MerkleTree.root H z tree'
  let record : DepositRecord :=
    ⟨id, r, commitment, indexNumber, oldRoot, newRoot, p.pathElements, p.pathIndices⟩
  pure (⟨tree', g.deposits ++ [record]⟩, record)

/-- The `'withdraw'` branch of `gentoml(…)`: look up the recorded deposit
for the requested index and return it (its fields make up the withdraw
TOML); the generator state is not touched. -/
def gentomlWithdraw (g : NoirCircuitTomlGenerator) (indexNumber : Nat) :
    Except String DepositRecord :=
  match g.deposits.find? (fun d => d.index == indexNumber) with
  | some d => .ok d
  | none => .error "No deposit record found for index"

/-- The always-successful result of the deposit body (`insert` never
throws, `insert_eq_ok`), as a total function. -/
def depositT (H : Fr → Fr → Fr) (z : Fr) (g : NoirCircuitTomlGenerator)
    (id r : Fr) : NoirCircuitTomlGenerator :=
  let indexNumber := g.tree.totalLeaves
  let oldRoot := MerkleTree.root H z g.tree
  let p := MerkleTree.proof H z g.tree indexNumber
  let commitment := H id r
  let tree' := MerkleTree.insertT H z g.tree commitment
  ⟨tree', g.deposits ++
    [⟨id, r, commitment, indexNumber, oldRoot, MerkleTree.root H z tree',
      p.pathElements, p.pathIndices⟩]⟩

/-- The generator's public operations. -/
inductive GenOp where
  | deposit (id r : Fr)
  | gentomlDeposit (id r : Fr)
  | gentomlWithdraw (index : Nat)
  deriving DecidableEq, Repr

/-- Apply one public operation to the generator state
(`gentoml('withdraw', i)` reads but never writes). -/
def applyOp (H : Fr → Fr → Fr) (z : Fr) (g : NoirCircuitTomlGenerator) :
    GenOp → NoirCircuitTomlGenerator
  | .deposit id r => depositT H z g id r
  | .gentomlDeposit id r => depositT H z g id r
  | .gentomlWithdraw _ => g

/-- The generator state after a sequence of public operations starting
from a fresh generator. -/
def runOps (H : Fr → Fr → Fr) (z : Fr) (ops : List GenOp) : NoirCircuitTomlGenerator :=
  ops.foldl (applyOp H z) initGen

end NoirCircuitTomlGenerator

/-! ## Claims -/
/-- A concrete stand-in hash for concrete evaluations (any function works:
the repository treats the hash as an external primitive). -/
def Hc : Fr → Fr → Fr := fun a b => 2 * a + 3 * b + 1

/-! ## Theorems -/

namespace MerkleTree

/-- `insert` never throws: the guard `isInsert && index < totalLeaves`
cannot fire at `index = totalLeaves`. -/
theorem insert_eq_ok (H : Fr → Fr → Fr) (z : Fr) (t : MerkleTree) (leaf : Fr) :
    insert H z t leaf = .ok (insertT H z t leaf) := by
  simp [insert, update, insertT, Except.map]

end MerkleTree

/-- A subtree that lies entirely beyond the stored leaves is all-zero. -/
theorem buildNode_of_le (H : Fr → Fr → Fr) (z : Fr) (leaves : List Fr)
    (level idx : Nat) (h : leaves.length ≤ 2 ^ level * idx) :
    buildNode H z leaves level idx = MerkleTree.zeros H z level := by
  induction level generalizing idx with
  | zero =>
    simp only [buildNode, MerkleTree.zeros]
    exact List.getD_eq_default _ _ (by simpa using h)
  | succ level ih =>
    have h1 : leaves.length ≤ 2 ^ level * (2 * idx) := by
      calc leaves.length ≤ 2 ^ (level + 1) * idx := h
        _ = 2 ^ level * (2 * idx) := by ring
    have h2 : leaves.length ≤ 2 ^ level * (2 * idx + 1) :=
      le_trans h1 (Nat.mul_le_mul_left _ (by omega))
    simp only [buildNode, ih _ h1, ih _ h2, MerkleTree.zeros]

/-- Appending one fresh leaf only changes the nodes on its path. -/
theorem buildNode_append (H : Fr → Fr → Fr) (z : Fr) (L : List Fr) (x : Fr)
    (level idx : Nat) (h : idx ≠ L.length / 2 ^ level) :
    buildNode H z (L ++ [x]) level idx = buildNode H z L level idx := by
  induction level generalizing idx with
  | zero =>
    simp only [buildNode]
    rcases lt_or_ge idx L.length with hlt | hge
    · exact List.getD_append _ _ _ _ hlt
    · have hne : idx ≠ L.length := by simpa using h
      rw [List.getD_eq_default _ _ (by simp; omega), List.getD_eq_default _ _ hge]
  | succ level ih =>
    have hd : L.length / 2 ^ (level + 1) = L.length / 2 ^ level / 2 := by
      rw [Nat.div_div_eq_div_mul, pow_succ]
    have k1 : 2 * idx ≠ L.length / 2 ^ level := by omega
    have k2 : 2 * idx + 1 ≠ L.length / 2 ^ level := by omega
    simp only [buildNode, ih _ k1, ih _ k2]

/-- The new leaf itself sits at the frontier index. -/
theorem getD_append_self (L : List Fr) (x z : Fr) : (L ++ [x]).getD L.length z = x := by
  rw [List.getD_append_right _ _ _ _ (le_refl _)]
  simp

namespace MerkleTree

theorem updateAux_entries (H : Fr → Fr → Fr) (z : Fr) (t : MerkleTree) :
    ∀ fuel level cur e,
      (updateAux H z t fuel level cur e).1 ++
        [((t.levels, 0), (updateAux H z t fuel level cur e).2)]
      = updEntries H z t fuel level cur e := by
  intro fuel
  induction fuel with
  | zero => intro level cur e; simp [updateAux, updEntries]
  | succ fuel ih => intro level cur e; simp [updateAux, updEntries, ih]

/-- Committing the writes of an in-progress `update` walk: starting at
`level` with the path index `L.length / 2 ^ level` and the already-correct
path value, the resulting storage reads back the canonical tree over
`L ++ [x]` on the path (and at the root), and is untouched elsewhere. -/
theorem updCommit_getNode (H : Fr → Fr → Fr) (z : Fr) (t : MerkleTree)
    (L : List Fr) (x : Fr)
    (hMir : ∀ level idx, level ≤ t.levels →
      getNode H z t level idx = buildNode H z L level idx)
    (hN : L.length < 2 ^ t.levels) :
    ∀ fuel level s₀, level + fuel = t.levels →
    (∀ ql qi, ql ≤ t.levels →
      (MStorage.getS s₀ (ql, qi)).getD (zeros H z ql)
        = if ql < level ∧ qi = L.length / 2 ^ ql then buildNode H z (L ++ [x]) ql qi
          else getNode H z t ql qi) →
    ∀ ql qi, ql ≤ t.levels →
    (MStorage.getS
        (MStorage.commit s₀
          (updEntries H z t fuel level (L.length / 2 ^ level)
            (buildNode H z (L ++ [x]) level (L.length / 2 ^ level))))
        (ql, qi)).getD (zeros H z ql)
      = if (ql < t.levels ∧ qi = L.length / 2 ^ ql) ∨ (ql = t.levels ∧ qi = 0)
        then buildNode H z (L ++ [x]) ql qi
        else getNode H z t ql qi := by
  intro fuel
  induction fuel with
  | zero =>
    intro level s₀ hlev hs₀ ql qi hql
    have hDl : level = t.levels := by omega
    subst hDl
    have hz : L.length / 2 ^ t.levels = 0 := Nat.div_eq_of_lt hN
    rw [hz]
    simp only [updEntries, MStorage.commit, MStorage.setS, MStorage.getS]
    by_cases hq : ((t.levels : Nat), (0 : Nat)) = (ql, qi)
    · obtain ⟨h1, h2⟩ := Prod.mk.injEq .. ▸ hq
      subst h1; subst h2
      rw [if_pos rfl, if_pos (Or.inr ⟨rfl, rfl⟩)]
      simp
    · rw [if_neg hq, hs₀ ql qi hql]
      have hne2 : ¬ (ql = t.levels ∧ qi = 0) := by
        intro ⟨h1, h2⟩; exact hq (by rw [h1, h2])
      by_cases hc : ql < t.levels ∧ qi = L.length / 2 ^ ql
      · rw [if_pos hc, if_pos (Or.inl hc)]
      · rw [if_neg hc, if_neg ?_]
        intro hor
        rcases hor with h | h
        · exact hc h
        · exact hne2 h
  | succ fuel ih =>
    intro level s₀ hlev hs₀ ql qi hql
    have hlevD : level < t.levels := by omega
    set cur := L.length / 2 ^ level with hcur
    set e := buildNode H z (L ++ [x]) level cur with he
    have hsibne : siblingIndex cur ≠ cur := by
      simp only [siblingIndex]; split <;> omega
    have hsib : getNode H z t level (siblingIndex cur)
        = buildNode H z (L ++ [x]) level (siblingIndex cur) := by
      rw [hMir level _ (le_of_lt hlevD),
        ← buildNode_append H z L x level _ (by rw [← hcur]; exact hsibne)]
    have hdiv : cur / 2 = L.length / 2 ^ (level + 1) := by
      rw [hcur, Nat.div_div_eq_div_mul, pow_succ]
    have hparent :
        H (if cur % 2 = 0 then (e, getNode H z t level (siblingIndex cur))
           else (getNode H z t level (siblingIndex cur), e)).1
          (if cur % 2 = 0 then (e, getNode H z t level (siblingIndex cur))
           else (getNode H z t level (siblingIndex cur), e)).2
        = buildNode H z (L ++ [x]) (level + 1) (cur / 2) := by
      rcases Nat.mod_two_eq_zero_or_one cur with hpar | hpar
      · rw [if_pos hpar, hsib]
        have hsi : siblingIndex cur = cur + 1 := by
          simp only [siblingIndex]; rw [if_pos hpar]
        have h2c : 2 * (cur / 2) = cur := by omega
        rw [hsi, he]
        conv_rhs => rw [buildNode]
        rw [h2c]
      · rw [if_neg (by omega), hsib]
        have hsi : siblingIndex cur = cur - 1 := by
          simp only [siblingIndex]; rw [if_neg (by omega)]
        have h2c : 2 * (cur / 2) = cur - 1 := by omega
        rw [hsi, he]
        conv_rhs => rw [buildNode]
        rw [h2c, show cur - 1 + 1 = cur by omega]
    show (MStorage.getS
        (MStorage.commit s₀ (updEntries H z t (fuel + 1) level cur e)) (ql, qi)).getD _ = _
    rw [updEntries]
    show (MStorage.getS
        (MStorage.commit (((level, cur), e) :: s₀)
          (updEntries H z t fuel (level + 1) (cur / 2) _)) (ql, qi)).getD _ = _
    rw [hparent, hdiv]
    refine ih (level + 1) (((level, cur), e) :: s₀) (by omega) ?_ ql qi hql
    intro rl ri hrl
    simp only [MStorage.getS]
    by_cases hq : ((level : Nat), cur) = (rl, ri)
    · obtain ⟨h1, h2⟩ := Prod.mk.injEq .. ▸ hq
      subst h1; subst h2
      rw [if_pos rfl, if_pos ⟨by omega, hcur⟩]
      simp [he]
    · rw [if_neg hq, hs₀ rl ri hrl]
      by_cases hc : rl < level ∧ ri = L.length / 2 ^ rl
      · rw [if_pos hc, if_pos ⟨by omega, hc.2⟩]
      · rw [if_neg hc, if_neg ?_]
        intro ⟨h1, h2⟩
        rcases Nat.lt_or_ge rl level with hlt | hge
        · exact hc ⟨hlt, h2⟩
        · have hrleq : rl = level := by omega
          subst hrleq
          exact hq (by rw [h2, hcur])

theorem insertT_levels (H : Fr → Fr → Fr) (z : Fr) (t : MerkleTree) (x : Fr) :
    (insertT H z t x).levels = t.levels := rfl

/-- One `insert` preserves the mirroring invariant (below capacity). -/
theorem insertT_mirrors (H : Fr → Fr → Fr) (z : Fr) (t : MerkleTree)
    (L : List Fr) (x : Fr) (hM : Mirrors H z t L) (hN : L.length < 2 ^ t.levels) :
    Mirrors H z (insertT H z t x) (L ++ [x]) := by
  obtain ⟨hTL, hMir⟩ := hM
  constructor
  · simp [insertT, hTL]
  intro level idx hlev
  rw [insertT_levels] at hlev
  have hstore : (insertT H z t x).storage
      = MStorage.commit t.storage (updEntries H z t t.levels 0 L.length x) := by
    simp only [insertT, updateAux_entries, hTL]
  have e0 : L.length / 2 ^ (0 : Nat) = L.length := by simp
  have x0 : buildNode H z (L ++ [x]) 0 L.length = x := by
    simp [buildNode, getD_append_self]
  have key := updCommit_getNode H z t L x hMir hN t.levels 0 t.storage (by omega)
    (by intro ql qi h; rw [if_neg (by omega)]; rfl) level idx hlev
  rw [e0, x0] at key
  show (MStorage.getS (insertT H z t x).storage (level, idx)).getD (zeros H z level) = _
  rw [hstore, key]
  by_cases hc : (level < t.levels ∧ idx = L.length / 2 ^ level) ∨ (level = t.levels ∧ idx = 0)
  · rw [if_pos hc]
  · rw [if_neg hc, hMir level idx hlev]
    rw [buildNode_append H z L x level idx ?_]
    rcases Nat.lt_or_ge level t.levels with hlt | hge
    · intro hidx; exact hc (Or.inl ⟨hlt, hidx⟩)
    · have hEq : level = t.levels := by omega
      subst hEq
      have hz : L.length / 2 ^ t.levels = 0 := Nat.div_eq_of_lt hN
      rw [hz]
      intro hidx
      exact hc (Or.inr ⟨rfl, hidx⟩)

theorem empty_mirrors (H : Fr → Fr → Fr) (z : Fr) (D : Nat) :
    Mirrors H z (empty D) [] := by
  refine ⟨rfl, ?_⟩
  intro level idx _
  have h1 : getNode H z (empty D) level idx = zeros H z level := by
    simp [getNode, empty, MStorage.getS]
  rw [h1, buildNode_of_le H z [] level idx (by simp)]

theorem foldl_insertT_levels (H : Fr → Fr → Fr) (z : Fr) :
    ∀ (L : List Fr) (t : MerkleTree), (L.foldl (insertT H z) t).levels = t.levels := by
  intro L
  induction L with
  | nil => intro t; rfl
  | cons x L ih => intro t; rw [List.foldl_cons, ih]; rfl

theorem insertList_levels (H : Fr → Fr → Fr) (z : Fr) (D : Nat) (L : List Fr) :
    (insertList H z D L).levels = D :=
  foldl_insertT_levels H z L (empty D)

theorem foldl_insertT_mirrors (H : Fr → Fr → Fr) (z : Fr) :
    ∀ (L2 : List Fr) (t : MerkleTree) (L1 : List Fr),
    Mirrors H z t L1 → (L1 ++ L2).length ≤ 2 ^ t.levels →
    Mirrors H z (L2.foldl (insertT H z) t) (L1 ++ L2) := by
  intro L2
  induction L2 with
  | nil => intro t L1 hM _; simpa using hM
  | cons x L2 ih =>
    intro t L1 hM hlen
    have hN : L1.length < 2 ^ t.levels := by
      simp only [List.length_append, List.length_cons] at hlen
      omega
    have hM' : Mirrors H z (insertT H z t x) (L1 ++ [x]) :=
      insertT_mirrors H z t L1 x hM hN
    rw [List.foldl_cons]
    have hres := ih (insertT H z t x) (L1 ++ [x]) hM' ?_
    · simpa [List.append_assoc] using hres
    · rw [insertT_levels]
      simp only [List.length_append, List.length_cons] at hlen ⊢
      simp
      omega

/-- Every tree built by sequential inserts (within capacity) mirrors the
canonical sparse tree over its leaf list. -/
theorem insertList_mirrors (H : Fr → Fr → Fr) (z : Fr) (D : Nat) (L : List Fr)
    (h : L.length ≤ 2 ^ D) : Mirrors H z (insertList H z D L) L := by
  have hres := foldl_insertT_mirrors H z L (empty D) [] (empty_mirrors H z D)
    (by simpa [empty] using h)
  simpa using hres

/-- Folding any node value up along the recorded sibling path and bits
reproduces the canonical ancestor value. -/
theorem foldUp_pathAux (H : Fr → Fr → Fr) (z : Fr) (t : MerkleTree) (L : List Fr)
    (hMir : ∀ level idx, level ≤ t.levels →
      getNode H z t level idx = buildNode H z L level idx) :
    ∀ fuel level idx, level + fuel ≤ t.levels →
    foldUp H (pathAux H z t fuel level idx).1 (pathAux H z t fuel level idx).2
      (buildNode H z L level idx)
    = buildNode H z L (level + fuel) (idx / 2 ^ fuel) := by
  intro fuel
  induction fuel with
  | zero => intro level idx h; simp [pathAux, foldUp]
  | succ fuel ih =>
    intro level idx h
    have hsv : getNode H z t level (siblingIndex idx) =
        buildNode H z L level (siblingIndex idx) := hMir _ _ (by omega)
    simp only [pathAux, foldUp, hsv]
    have hstep : (if idx % 2 = 1
          then H (buildNode H z L level (siblingIndex idx)) (buildNode H z L level idx)
          else H (buildNode H z L level idx) (buildNode H z L level (siblingIndex idx)))
        = buildNode H z L (level + 1) (idx / 2) := by
      rcases Nat.mod_two_eq_zero_or_one idx with hpar | hpar
      · rw [if_neg (by omega)]
        have hsi : siblingIndex idx = idx + 1 := by
          simp only [siblingIndex]; rw [if_pos hpar]
        rw [hsi]
        conv_rhs => rw [buildNode]
        rw [show 2 * (idx / 2) = idx by omega]
      · rw [if_pos hpar]
        have hsi : siblingIndex idx = idx - 1 := by
          simp only [siblingIndex]; rw [if_neg (by omega)]
        rw [hsi]
        conv_rhs => rw [buildNode]
        rw [show 2 * (idx / 2) = idx - 1 by omega, show idx - 1 + 1 = idx by omega]
    rw [hstep, ih (level + 1) (idx / 2) (by omega)]
    congr 1
    · omega
    · rw [Nat.div_div_eq_div_mul]
      congr 1
      ring

end MerkleTree

/-- The root value computed by `update`'s walk is `accWalk` applied to the
sibling values that `traverse` reads (the `proof` path elements). -/
theorem updateAux_snd_accWalk (H : Fr → Fr → Fr) (z : Fr) (t : MerkleTree) :
    ∀ fuel level cur e,
      (MerkleTree.updateAux H z t fuel level cur e).2
        = accWalk H (MerkleTree.pathAux H z t fuel level cur).1 cur e := by
  intro fuel
  induction fuel with
  | zero => intro level cur e; rfl
  | succ fuel ih =>
    intro level cur e
    simp only [MerkleTree.updateAux, MerkleTree.pathAux, accWalk, ih]

/-- The little-endian bit at each level equals the parity of the halved
index, so the circuit fold and the Accumulator walk coincide. -/
theorem circuitFold_leBits_accWalk (H : Fr → Fr → Fr) :
    ∀ (path : List Fr) (index : Nat) (e : Fr),
      Circuit.circuitFold H path (Circuit.leBits path.length index) e
        = accWalk H path index e := by
  intro path
  induction path with
  | nil => intro index e; rfl
  | cons p ps ih =>
    intro index e
    show Circuit.circuitFold H (p :: ps)
      (index % 2 :: Circuit.leBits ps.length (index / 2)) e = _
    rcases Nat.mod_two_eq_zero_or_one index with hpar | hpar
    · simp only [Circuit.circuitFold, accWalk, hpar, ih]
      simp
    · simp only [Circuit.circuitFold, accWalk, hpar, ih]
      simp

/-- The zero constants are literally the D-fold pairwise self-hash of the
zero leaf. -/
theorem zeros_eq_iterate (H : Fr → Fr → Fr) (z : Fr) (n : Nat) :
    MerkleTree.zeros H z n = (fun x => H x x)^[n] z := by
  induction n with
  | zero => rfl
  | succ n ih => rw [MerkleTree.zeros, Function.iterate_succ_apply', ih]

/-- C8: for every depth D, the `root()` of a tree into which nothing has
been inserted equals the value obtained by hashing the canonical zero-leaf
constant with itself pairwise D times; `root` is a total pure function
(no side effects, no failure mode). -/
theorem claimC8 (H : Fr → Fr → Fr) (z : Fr) (D : Nat) :
    MerkleTree.root H z (MerkleTree.empty D) = (fun x => H x x)^[D] z :=
  zeros_eq_iterate H z D

/-- C7: for every index in `[0, 2^D)` and every length-D sibling path, the
circuits' walk (little-endian index bits; bit 1 ⇒ current value on the
right of the hash) equals the Accumulator's walk (index parity decides the
side, sibling = index XOR 1, index halves each level); moreover the root
value computed by `update` is exactly the Accumulator walk over the
sibling values read by `traverse`. -/
theorem claimC7 (H : Fr → Fr → Fr) (z : Fr) (t : MerkleTree) (D index : Nat)
    (path : List Fr) (start : Fr) (hlen : path.length = D) (_hidx : index < 2 ^ D) :
    Circuit.circuitWalk H D index path start = accWalk H path index start ∧
    ∀ fuel level cur e,
      (MerkleTree.updateAux H z t fuel level cur e).2
        = accWalk H (MerkleTree.pathAux H z t fuel level cur).1 cur e := by
  constructor
  · rw [Circuit.circuitWalk, ← hlen]
    exact circuitFold_leBits_accWalk H path index start
  · exact updateAux_snd_accWalk H z t

theorem claimC7_witness :
    ([5, 6, 7] : List Fr).length = 3 ∧ (5 : Nat) < 2 ^ 3 ∧
    Circuit.circuitWalk Hc 3 5 [5, 6, 7] 9 = accWalk Hc [5, 6, 7] 5 9 :=
  ⟨by decide, by decide,
    (claimC7 Hc 0 (MerkleTree.empty 1) 3 5 [5, 6, 7] 9 (by decide) (by decide)).1⟩

/-- C4 (code bug): the spec requires `insert` on a tree already holding
`2^D` leaves to fail with a caller error, and the assigned index to stay
inside `[0, 2^D)`.  The code has no capacity check at all: `insert` never
throws (first conjunct), and on a full depth-1 tree the third `insert`
succeeds, pushes `totalLeaves` to `3 > 2^1`, and stores the leaf at the
out-of-domain index `2`. -/
theorem claimC4 :
    (∀ (H : Fr → Fr → Fr) (z : Fr) (t : MerkleTree) (leaf : Fr),
      MerkleTree.insert H z t leaf = .ok (MerkleTree.insertT H z t leaf)) ∧
    (MerkleTree.insert Hc 0 (MerkleTree.insertList Hc 0 1 [1, 2]) 3).isOk = true ∧
    (MerkleTree.insertList Hc 0 1 [1, 2]).totalLeaves = 2 ^ 1 ∧
    (MerkleTree.insertList Hc 0 1 [1, 2, 3]).totalLeaves = 3 ∧
    MStorage.getS (MerkleTree.insertList Hc 0 1 [1, 2, 3]).storage (0, 2) = some 3 :=
  ⟨MerkleTree.insert_eq_ok, by rfl, by rfl, by rfl, by rfl⟩

/-- C5 counterexample: calling `update(1, leaf, isInsert=true)` twice for
the same index 1 on a fresh depth-2 tree succeeds BOTH times (the insert
guard compares against `totalLeaves`, which `update` never advances), so
the claim "fails the second time" is false as stated. -/
theorem claimC5_counterexample :
    ((MerkleTree.update Hc 0 (MerkleTree.empty 2) 1 5 true).bind
      (fun t1 => MerkleTree.update Hc 0 t1 1 7 true)).isOk = true := by
  rfl

/-- C5 (amended): `update` in insert mode rejects exactly the indices
strictly below the frontier `totalLeaves` (so after an `insert` placed a
leaf at index i — advancing the frontier past i — a second insert-mode
`update` at i throws), and `update` in non-insert mode rejects exactly the
indices at or beyond `totalLeaves`; occupancy of the storage itself is not
consulted, so two direct insert-mode `update` calls at the same
beyond-frontier index both succeed. -/
theorem claimC5 :
    (∀ (H : Fr → Fr → Fr) (z : Fr) (t : MerkleTree) (i : Nat) (leaf : Fr),
      i < t.totalLeaves →
      MerkleTree.update H z t i leaf true
        = .error "Use update method for existing elements.") ∧
    (∀ (H : Fr → Fr → Fr) (z : Fr) (t : MerkleTree) (i : Nat) (leaf : Fr),
      t.totalLeaves ≤ i →
      MerkleTree.update H z t i leaf false
        = .error "Use insert method for new elements.") ∧
    (∀ (H : Fr → Fr → Fr) (z : Fr) (t : MerkleTree) (leaf leaf' : Fr),
      MerkleTree.update H z (MerkleTree.insertT H z t leaf) t.totalLeaves leaf' true
        = .error "Use update method for existing elements.") := by
  refine ⟨?_, ?_, ?_⟩
  · intro H z t i leaf h
    simp [MerkleTree.update, h]
  · intro H z t i leaf h
    simp [MerkleTree.update, h]
  · intro H z t leaf leaf'
    have h : t.totalLeaves < (MerkleTree.insertT H z t leaf).totalLeaves := by
      simp [MerkleTree.insertT]
    simp [MerkleTree.update, h]

theorem claimC5_witness :
    (0 : Nat) < (MerkleTree.insertList Hc 0 2 [4]).totalLeaves ∧
    (MerkleTree.insertList Hc 0 2 [4]).totalLeaves ≤ 1 ∧
    MerkleTree.update Hc 0 (MerkleTree.insertList Hc 0 2 [4]) 0 9 true
      = .error "Use update method for existing elements." ∧
    MerkleTree.update Hc 0 (MerkleTree.insertList Hc 0 2 [4]) 1 9 false
      = .error "Use insert method for new elements." :=
  ⟨by decide, by decide,
    claimC5.1 Hc 0 (MerkleTree.insertList Hc 0 2 [4]) 0 9 (by decide),
    claimC5.2.1 Hc 0 (MerkleTree.insertList Hc 0 2 [4]) 1 9 (by decide)⟩

/-- C6: for every tree obtained by N sequential `insert` calls
(N ≤ 2^D) and every index i < N, folding `proof(i).leaf` upward with
`proof(i).pathElements` and `proof(i).pathIndices` (hashing with the
sibling at each level, ordered by the path-index bit) yields exactly
`root()`. -/
theorem claimC6 (H : Fr → Fr → Fr) (z : Fr) (D : Nat) (L : List Fr)
    (hL : L.length ≤ 2 ^ D) (i : Nat) (hi : i < L.length) :
    foldUp H (MerkleTree.proof H z (MerkleTree.insertList H z D L) i).pathElements
      (MerkleTree.proof H z (MerkleTree.insertList H z D L) i).pathIndices
      (MerkleTree.proof H z (MerkleTree.insertList H z D L) i).leaf
    = MerkleTree.root H z (MerkleTree.insertList H z D L) := by
  set t := MerkleTree.insertList H z D L with ht
  have hlev : t.levels = D := MerkleTree.insertList_levels H z D L
  obtain ⟨hTL, hMir⟩ := MerkleTree.insertList_mirrors H z D L hL
  have hleaf : (MerkleTree.proof H z t i).leaf = buildNode H z L 0 i :=
    hMir 0 i (by omega)
  have hpe : (MerkleTree.proof H z t i).pathElements
      = (MerkleTree.pathAux H z t t.levels 0 i).1 := rfl
  have hpi : (MerkleTree.proof H z t i).pathIndices
      = (MerkleTree.pathAux H z t t.levels 0 i).2 := rfl
  have hroot : MerkleTree.root H z t = buildNode H z L t.levels 0 :=
    hMir t.levels 0 (le_refl _)
  rw [hleaf, hpe, hpi, hroot]
  have hfold := MerkleTree.foldUp_pathAux H z t L hMir t.levels 0 i (by omega)
  rw [hfold, Nat.zero_add, Nat.div_eq_of_lt (by rw [hlev]; omega)]

theorem claimC6_witness :
    ([10, 20, 30] : List Fr).length ≤ 2 ^ 2 ∧
    1 < ([10, 20, 30] : List Fr).length ∧
    foldUp Hc (MerkleTree.proof Hc 1 (MerkleTree.insertList Hc 1 2 [10, 20, 30]) 1).pathElements
      (MerkleTree.proof Hc 1 (MerkleTree.insertList Hc 1 2 [10, 20, 30]) 1).pathIndices
      (MerkleTree.proof Hc 1 (MerkleTree.insertList Hc 1 2 [10, 20, 30]) 1).leaf
    = MerkleTree.root Hc 1 (MerkleTree.insertList Hc 1 2 [10, 20, 30]) :=
  ⟨by decide, by decide, claimC6 Hc 1 2 [10, 20, 30] (by decide) 1 (by decide)⟩

namespace Whirlwind

/-- A successful `deposit` does not touch the nullifier set. -/
theorem deposit_ok_used (vD : Nat → List Nat → Bool) (s s' : State)
    (proof newRoot commitment msgValue : Nat) (e : Event)
    (h : deposit vD s proof newRoot commitment msgValue = .ok (s', e)) :
    s'.usedNullifiers = s.usedNullifiers := by
  simp only [deposit] at h
  split at h
  · simp at h
  · split at h
    · simp at h
    · split at h
      · simp at h
      · simp only [Except.ok.injEq, Prod.mk.injEq] at h
        obtain ⟨h1, -⟩ := h
        rw [← h1]

/-- A successful `withdraw` produces exactly the state with its nullifier
prepended to the set. -/
theorem withdraw_ok_state (vW : Nat → List Nat → Bool) (s s' : State)
    (proof nullifier sender : Nat) (e : Event) (amt : Nat)
    (h : withdraw vW s proof nullifier sender = .ok (s', e, amt)) :
    s' = { s with usedNullifiers := nullifier :: s.usedNullifiers } := by
  simp only [withdraw] at h
  split at h
  · simp at h
  · split at h
    · simp at h
    · simp only [Except.ok.injEq, Prod.mk.injEq] at h
      obtain ⟨h1, -⟩ := h
      rw [← h1]

/-- Every accepted ledger transition only grows the nullifier set. -/
theorem step_used_mono (vD vW : Nat → List Nat → Bool) {s s' : State}
    (hstep : Step vD vW s s') :
    ∀ n, n ∈ s.usedNullifiers → n ∈ s'.usedNullifiers := by
  intro n hn
  cases hstep with
  | deposit proof newRoot commitment msgValue e h =>
    rw [deposit_ok_used vD _ _ _ _ _ _ _ h]
    exact hn
  | withdraw proof nullifier sender e amt h =>
    rw [withdraw_ok_state vW _ _ _ _ _ _ _ h]
    exact List.mem_cons_of_mem _ hn

/-- Monotonicity of the nullifier set along any sequence of accepted
transitions. -/
theorem reach_used_mono (vD vW : Nat → List Nat → Bool) {s1 s2 : State}
    (h : Relation.ReflTransGen (Step vD vW) s1 s2) :
    ∀ n, n ∈ s1.usedNullifiers → n ∈ s2.usedNullifiers := by
  induction h with
  | refl => intro n hn; exact hn
  | tail _ hstep ih => intro n hn; exact step_used_mono _ _ hstep n (ih n hn)

end Whirlwind

/-- C3: a used nullifier is rejected with the double-spend error for EVERY
verifier capability (so before and independent of any proof verification);
every accepted transition only grows the nullifier set; a successful
withdraw records its nullifier; hence once a withdraw succeeds for X,
every later withdraw presenting X — after any sequence of accepted
transitions — fails with the double-spend rejection, whatever its proof. -/
theorem claimC3 :
    (∀ (vW : Nat → List Nat → Bool) (s : Whirlwind.State)
       (proof nullifier sender : Nat),
      nullifier ∈ s.usedNullifiers →
      Whirlwind.withdraw vW s proof nullifier sender
        = .error "Nullifier already used") ∧
    (∀ (vD vW : Nat → List Nat → Bool) (s s' : Whirlwind.State),
      Whirlwind.Step vD vW s s' →
      ∀ n, n ∈ s.usedNullifiers → n ∈ s'.usedNullifiers) ∧
    (∀ (vW : Nat → List Nat → Bool) (s s' : Whirlwind.State)
       (proof nullifier sender : Nat) (e : Whirlwind.Event) (amt : Nat),
      Whirlwind.withdraw vW s proof nullifier sender = .ok (s', e, amt) →
      nullifier ∈ s'.usedNullifiers) ∧
    (∀ (vD vW vW' : Nat → List Nat → Bool) (s s1 s2 : Whirlwind.State)
       (p X sender : Nat) (e : Whirlwind.Event) (amt : Nat),
      Whirlwind.withdraw vW s p X sender = .ok (s1, e, amt) →
      Relation.ReflTransGen (Whirlwind.Step vD vW) s1 s2 →
      ∀ p' sender', Whirlwind.withdraw vW' s2 p' X sender'
        = .error "Nullifier already used") := by
  refine ⟨?_, ?_, ?_, ?_⟩
  · intro vW s proof nullifier sender h
    simp only [Whirlwind.withdraw]
    rw [if_pos h]
  · intro vD vW s s' hstep
    exact Whirlwind.step_used_mono vD vW hstep
  · intro vW s s' proof nullifier sender e amt h
    rw [Whirlwind.withdraw_ok_state vW _ _ _ _ _ _ _ h]
    exact List.mem_cons_self _ _
  · intro vD vW vW' s s1 s2 p X sender e amt h hreach p' sender'
    have h1 : X ∈ s1.usedNullifiers := by
      rw [Whirlwind.withdraw_ok_state vW _ _ _ _ _ _ _ h]
      exact List.mem_cons_self _ _
    have h2 : X ∈ s2.usedNullifiers :=
      Whirlwind.reach_used_mono vD vW hreach X h1
    simp only [Whirlwind.withdraw]
    rw [if_pos h2]

theorem claimC3_witness :
    Whirlwind.withdraw (fun _ _ => false) ⟨0, 4, [9], 5⟩ 2 9 88
      = .error "Nullifier already used" :=
  claimC3.2.2.2 (fun _ _ => true) (fun _ _ => true) (fun _ _ => false)
    ⟨0, 4, [], 5⟩ ⟨0, 4, [9], 5⟩ ⟨0, 4, [9], 5⟩ 1 9 77 (.Withdraw 77 9)
    Whirlwind.unitAmountWei (by rfl) Relation.ReflTransGen.refl 2 88

/-- C10: in every successful `withdraw` execution, the nullifier is marked
used strictly before the payout transfer (the mark effect precedes the
transfer effect in the body's statement order), so the state visible to
any external call made during the payout already contains the nullifier —
a reentrant `withdraw` with the same nullifier fails with the double-spend
rejection under every verifier.  The effects agree with `withdraw`. -/
theorem claimC10 (verify : Nat → List Nat → Bool) (s : Whirlwind.State)
    (proof nullifier sender : Nat) (effs : List Whirlwind.Effect)
    (h : Whirlwind.withdrawEffects verify s proof nullifier sender = .ok effs) :
    (∃ i j, i < j ∧ effs[i]? = some (.markNullifier nullifier) ∧
      effs[j]? = some (.transfer sender Whirlwind.unitAmountWei) ∧
      ∀ (verify' : Nat → List Nat → Bool) (p' snd' : Nat),
        Whirlwind.withdraw verify' (Whirlwind.applyEffects s (effs.take j))
          p' nullifier snd' = .error "Nullifier already used") ∧
    Whirlwind.withdraw verify s proof nullifier sender
      = .ok (Whirlwind.applyEffects s effs, .Withdraw sender nullifier,
             Whirlwind.unitAmountWei) := by
  by_cases hmem : nullifier ∈ s.usedNullifiers
  · simp only [Whirlwind.withdrawEffects] at h
    rw [if_pos hmem] at h
    simp at h
  · by_cases hv : verify proof [s.currentRoot, nullifier] = true
    · simp only [Whirlwind.withdrawEffects] at h
      rw [if_neg hmem, if_neg (by simp [hv])] at h
      simp only [Except.ok.injEq] at h
      subst h
      constructor
      · refine ⟨0, 2, by omega, rfl, rfl, ?_⟩
        intro verify' p' snd'
        have hmem2 : nullifier ∈ (Whirlwind.applyEffects s
            ([Whirlwind.Effect.markNullifier nullifier,
              .emitWithdraw sender nullifier,
              .transfer sender Whirlwind.unitAmountWei].take 2)).usedNullifiers :=
          List.mem_cons_self _ _
        simp only [Whirlwind.withdraw]
        rw [if_pos hmem2]
      · simp only [Whirlwind.withdraw]
        rw [if_neg hmem, if_neg (by simp [hv])]
        rfl
    · simp only [Whirlwind.withdrawEffects] at h
      rw [if_neg hmem, if_pos (by simp [hv])] at h
      simp at h

theorem claimC10_witness :
    Whirlwind.withdraw (fun _ _ => true) ⟨0, 4, [], 5⟩ 1 9 77
      = .ok (Whirlwind.applyEffects ⟨0, 4, [], 5⟩
          [.markNullifier 9, .emitWithdraw 77 9,
           .transfer 77 Whirlwind.unitAmountWei],
        .Withdraw 77 9, Whirlwind.unitAmountWei) :=
  (claimC10 (fun _ _ => true) ⟨0, 4, [], 5⟩ 1 9 77
    [.markNullifier 9, .emitWithdraw 77 9,
     .transfer 77 Whirlwind.unitAmountWei] (by rfl)).2

/-- C1 (code bug): the claim — `withdraw(proof, nullifier)` with exactly
two arguments, verified against `[currentRoot, nullifier]` with the
Ledger's own stored root — holds of the README-provided contract (first
conjunct: on a state with `currentRoot = 5`, an oracle accepting exactly
`[5, 3]` lets `withdraw` succeed, record the nullifier, emit Withdraw and
pay the unit amount).  The checked-in `hw5/contracts/whirlwind.sol`
instead takes a third caller-supplied `root` argument and verifies against
`[root, nullifier]`: with stored root 5 it passes `[7, 3]` to the verifier
(second conjunct) and rejects under the oracle accepting the claimed
inputs `[5, 3]` (third conjunct). -/
theorem claimC1 :
    Whirlwind.withdraw (fun _ inputs => inputs == [5, 3]) ⟨0, 256, [], 5⟩ 100 3 77
      = .ok (⟨0, 256, [3], 5⟩, .Withdraw 77 3, Whirlwind.unitAmountWei) ∧
    Whirlwind.withdrawHw5 (fun _ inputs => inputs == [7, 3]) ⟨0, 256, [], 5⟩ 100 7 3 77
      = .ok (⟨0, 256, [3], 5⟩, .Withdraw 77 3, Whirlwind.unitAmountWei) ∧
    Whirlwind.withdrawHw5 (fun _ inputs => inputs == [5, 3]) ⟨0, 256, [], 5⟩ 100 7 3 77
      = .error "Invalid withdraw proof" :=
  ⟨rfl, rfl, rfl⟩

/-- C2 (code bug): the claim — deposit public inputs in the exact order
`[currentRoot, newRoot, commitment, depositIndex]`, with root update,
index increment and Deposit event on success and a rejected call leaving
the state unchanged — holds of the README-provided contract (first and
last conjuncts).  The checked-in `hw5/contracts/whirlwind.sol` instead
packs `(commitment, depositIndex, newRoot)` — wrong order and missing the
stored `currentRoot` entirely: it accepts under an oracle expecting
`[9, 0, 7]` (second conjunct) and rejects under the oracle accepting the
claimed inputs `[5, 7, 9, 0]` (third conjunct). -/
theorem claimC2 :
    Whirlwind.deposit (fun _ inputs => inputs == [5, 7, 9, 0]) ⟨0, 256, [], 5⟩
        100 7 9 Whirlwind.unitAmountWei
      = .ok (⟨1, 256, [], 7⟩, .Deposit 7 9 0) ∧
    Whirlwind.depositHw5 (fun _ inputs => inputs == [9, 0, 7]) ⟨0, 256, [], 5⟩
        100 7 9 Whirlwind.unitAmountWei
      = .ok (⟨1, 256, [], 7⟩, .Deposit 7 9 0) ∧
    Whirlwind.depositHw5 (fun _ inputs => inputs == [5, 7, 9, 0]) ⟨0, 256, [], 5⟩
        100 7 9 Whirlwind.unitAmountWei
      = .error "Invalid deposit proof" ∧
    Whirlwind.deposit (fun _ _ => false) ⟨0, 256, [], 5⟩
        100 7 9 Whirlwind.unitAmountWei
      = .error "Invalid deposit proof" :=
  ⟨rfl, rfl, rfl, rfl⟩

namespace NoirCircuitTomlGenerator

/-- The deposit body never fails and computes `depositT`. -/
theorem deposit_eq_ok (H : Fr → Fr → Fr) (z : Fr) (g : NoirCircuitTomlGenerator)
    (id r : Fr) :
    deposit H z g id r
      = .ok (depositT H z g id r,
          ⟨id, r, H id r, g.tree.totalLeaves, MerkleTree.root H z g.tree,
            MerkleTree.root H z (MerkleTree.insertT H z g.tree (H id r)),
            (MerkleTree.proof H z g.tree g.tree.totalLeaves).pathElements,
            (MerkleTree.proof H z g.tree g.tree.totalLeaves).pathIndices⟩) := by
  simp only [deposit, depositT, MerkleTree.insert_eq_ok]
  rfl

/-- The `gentoml('deposit', …)` body never fails and computes `depositT`. -/
theorem gentomlDeposit_eq_ok (H : Fr → Fr → Fr) (z : Fr)
    (g : NoirCircuitTomlGenerator) (id r : Fr) :
    gentomlDeposit H z g id r
      = .ok (depositT H z g id r,
          ⟨id, r, H id r, g.tree.totalLeaves, MerkleTree.root H z g.tree,
            MerkleTree.root H z (MerkleTree.insertT H z g.tree (H id r)),
            (MerkleTree.proof H z g.tree g.tree.totalLeaves).pathElements,
            (MerkleTree.proof H z g.tree g.tree.totalLeaves).pathIndices⟩) := by
  simp only [gentomlDeposit, depositT, MerkleTree.insert_eq_ok]
  rfl

/-- The length/leaf-count invariant survives any operation sequence. -/
theorem runOps_invariant_aux (H : Fr → Fr → Fr) (z : Fr) :
    ∀ (ops : List GenOp) (g : NoirCircuitTomlGenerator),
    g.deposits.length = g.tree.totalLeaves →
    (ops.foldl (applyOp H z) g).deposits.length
      = (ops.foldl (applyOp H z) g).tree.totalLeaves := by
  intro ops
  induction ops with
  | nil => intro g hg; simpa using hg
  | cons op ops ih =>
    intro g hg
    rw [List.foldl_cons]
    apply ih
    cases op with
    | deposit id r => simp [applyOp, depositT, MerkleTree.insertT, hg]
    | gentomlDeposit id r => simp [applyOp, depositT, MerkleTree.insertT, hg]
    | gentomlWithdraw i => simpa using hg

end NoirCircuitTomlGenerator

/-- C9: `deposit(id, r)` and `gentoml('deposit', id, r)` always succeed
and both mutate the generator — one leaf inserted (`totalLeaves` + 1) and
one record appended (`deposits.length` + 1) — so after every sequence of
generator operations the invariant `deposits.length = tree.totalLeaves`
holds; generating a deposit TOML string is not read-only. -/
theorem claimC9 :
    (∀ (H : Fr → Fr → Fr) (z : Fr) (g : NoirCircuitTomlGenerator) (id r : Fr),
      (NoirCircuitTomlGenerator.deposit H z g id r).isOk = true ∧
      (NoirCircuitTomlGenerator.gentomlDeposit H z g id r).isOk = true ∧
      (NoirCircuitTomlGenerator.deposit H z g id r).toOption.map Prod.fst
        = some (NoirCircuitTomlGenerator.depositT H z g id r) ∧
      (NoirCircuitTomlGenerator.gentomlDeposit H z g id r).toOption.map Prod.fst
        = some (NoirCircuitTomlGenerator.depositT H z g id r) ∧
      (NoirCircuitTomlGenerator.depositT H z g id r).tree.totalLeaves
        = g.tree.totalLeaves + 1 ∧
      (NoirCircuitTomlGenerator.depositT H z g id r).deposits.length
        = g.deposits.length + 1) ∧
    (∀ (H : Fr → Fr → Fr) (z : Fr) (ops : List NoirCircuitTomlGenerator.GenOp),
      (NoirCircuitTomlGenerator.runOps H z ops).deposits.length
        = (NoirCircuitTomlGenerator.runOps H z ops).tree.totalLeaves) := by
  constructor
  · intro H z g id r
    refine ⟨?_, ?_, ?_, ?_, ?_, ?_⟩
    · rw [NoirCircuitTomlGenerator.deposit_eq_ok]; rfl
    · rw [NoirCircuitTomlGenerator.gentomlDeposit_eq_ok]; rfl
    · rw [NoirCircuitTomlGenerator.deposit_eq_ok]; rfl
    · rw [NoirCircuitTomlGenerator.gentomlDeposit_eq_ok]; rfl
    · rfl
    · simp [NoirCircuitTomlGenerator.depositT]
  · intro H z ops
    exact NoirCircuitTomlGenerator.runOps_invariant_aux H z ops
      NoirCircuitTomlGenerator.initGen rfl
